import Mathlib

/-!
Shallow embedding of the `c2rust-build` preload hook (`src/hook/hook.c`).

C strings are modelled as `List Char` (no NUL terminator); the filesystem,
environment and fallible system calls are modelled by an explicit `World`
oracle.  The hook's observable behaviour is modelled as a trace of `Effect`s
plus the new contents of `targets.list`; executions that reach the
out-of-bounds write in `target_save` (a read that fills the whole buffer,
making the NUL-termination write past `buf[MAX_CMD_LEN]`) are mapped to
`none` (undefined behaviour).
-/

namespace Hook

/-- Newline character used by `dprintf(fd, "%s\n", ...)`. -/
def nlChar : Char := '\n'

/-- MAX_PATH_LEN from hook.c. -/
def MAX_PATH_LEN : Nat := 8192

/-- MAX_CMD_LEN from hook.c. -/
def MAX_CMD_LEN : Nat := 16384

/-- Oracle for the environment, the filesystem and fallible system calls.
`targetsContents` is the content of `feature_root/c/targets.list` at the
moment `target_save` reads it; the `*Ok` flags are the outcomes of `open`,
`flock`, `read` and `lseek`. -/
structure World where
  getenv : List Char → Option (List Char)
  realpath : List Char → Option (List Char)
  readable : List Char → Bool
  targetsContents : List Char
  openOk : Bool
  flockOk : Bool
  readOk : Bool
  lseekOk : Bool

/-- Observable actions the hook performs, in order. `writeStdout` and
`exitProcess` are included so that their absence from every trace is a
provable statement; no code path of the embedding emits them, mirroring the
C source which never writes to fd 1 and never exits. -/
inductive Effect where
  | setenv : List Char → List Char → Effect
  | shell : List Char → Effect
  | openFile : List Char → Effect
  | lockFile : List Char → Effect
  | readFile : List Char → Effect
  | seekEnd : List Char → Effect
  | writeFile : List Char → List Char → Effect
  | writeStderr : List Char → Effect
  | writeStdout : List Char → Effect
  | closeFile : List Char → Effect
  | exitProcess : Nat → Effect
  deriving DecidableEq

/-- `is_matched` from hook.c: linear scan with `strcmp`. -/
def is_matched (name : List Char) (names : List (List Char)) : Bool :=
  names.contains name

/-- Built-in compiler names. -/
def cc_names : List (List Char) := ["gcc".data, "clang".data, "cc".data]

/-- Built-in linker names. -/
def ld_names : List (List Char) := ["ld".data, "lld".data]

/-- Built-in archiver names. -/
def ar_names : List (List Char) := ["ar".data]

/-- `is_compiler` from hook.c: C2RUST_CC override, else built-in set. -/
def is_compiler (w : World) (name : List Char) : Bool :=
  match w.getenv "C2RUST_CC".data with
  | none => is_matched name cc_names
  | some cc => cc == name

/-- `is_linker` from hook.c: C2RUST_LD override, else built-in set. -/
def is_linker (w : World) (name : List Char) : Bool :=
  match w.getenv "C2RUST_LD".data with
  | none => is_matched name ld_names
  | some ld => ld == name

/-- `is_archiver` from hook.c. -/
def is_archiver (name : List Char) : Bool :=
  is_matched name ar_names

/-- `path_from` from hook.c: getenv then realpath. -/
def path_from (w : World) (env : List Char) : Option (List Char) :=
  (w.getenv env).bind w.realpath

/-- `is_cfile` from hook.c: length > 2 and the last two characters are ".c". -/
def is_cfile (f : List Char) : Bool :=
  f.length > 2 && f.drop (f.length - 2) == ".c".data

/-- `parse_args` from hook.c, run on `argv[1..]`.  Returns the extracted
flag list and the collected C-file slots (a slot is `none` when `realpath`
failed, matching the NULL stored in the C array).  The `-include` branch
stores `arg` a second time instead of the following token, exactly as the
source does at hook.c:105, while still consuming the following token. -/
def parse_args (w : World) : List (List Char) → List (List Char) × List (Option (List Char))
  | [] => ([], [])
  | arg :: rest =>
    if arg.head? = some '-' then
      let t := arg.tail
      if t.head? = some 'I' ∨ t.head? = some 'D' ∨ t.head? = some 'U' then
        if t.tail ≠ [] then
          let r := parse_args w rest
          (arg :: r.1, r.2)
        else
          match rest with
          | [] => ([arg], [])
          | v :: rest' =>
            let r := parse_args w rest'
            (arg :: v :: r.1, r.2)
      else if t = "include".data then
        match rest with
        | [] => ([arg], [])
        | _ :: rest' =>
          let r := parse_args w rest'
          (arg :: arg :: r.1, r.2)
      else if t.take 4 = "std=".data then
        let r := parse_args w rest
        (arg :: r.1, r.2)
      else parse_args w rest
    else
      let r := parse_args w rest
      if is_cfile arg && w.readable arg then (r.1, w.realpath arg :: r.2)
      else r

/-- Tokens whose value is the next argument, per the spec's scan
description (separated `-I`/`-D`/`-U` and `-include`). -/
def consumes_value (a : List Char) : Bool :=
  a == "-I".data || a == "-D".data || a == "-U".data || a == "-include".data

/-- Spec-side test for a collected source token: positional, suffix `.c`
with at least one character before it, readable. -/
def source_token (w : World) (a : List Char) : Bool :=
  !(a.head? == some '-') && is_cfile a && w.readable a

/-- Modelled from the spec's argument-extractor wording: a single scan that
skips the value consumed by a separated `-I`/`-D`/`-U`/`-include` and maps
every surviving source token through `realpath`. Used as the independent
reference point for the C8 refinement statement. -/
def spec_sources (w : World) : List (List Char) → List (Option (List Char))
  | [] => []
  | a :: rest =>
    if consumes_value a then
      match rest with
      | [] => []
      | _ :: rest' => spec_sources w rest'
    else if source_token w a then w.realpath a :: spec_sources w rest
    else spec_sources w rest

/-- `ends_with` from hook.c. -/
def ends_with (s suffix : List Char) : Bool :=
  if s.length < suffix.length then false
  else s.drop (s.length - suffix.length) == suffix

/-- `get_file` from hook.c: everything after the last '/', or the whole
string when there is no '/'. -/
def get_file (p : List Char) : List Char :=
  (p.reverse.takeWhile (fun c => c ≠ '/')).reverse

/-- `strip_prefix` from hook.c.  Matches the source for non-empty prefixes
(the C code reads `prefix[prefix_len - 1]`, which is out of bounds for an
empty prefix, so theorems about it assume a non-empty prefix). -/
def strip_prefix (path pre : List Char) : Option (List Char) :=
  if path.take pre.length = pre then
    if pre.getLast? = some '/' then some (path.drop pre.length)
    else if (path.drop pre.length).head? = some '/' then some (path.drop (pre.length + 1))
    else none
  else none

/-- `get_static_lib` from hook.c: the argument must resolve under the
project root, and its basename must be `lib<...>.a` with length > 5. -/
def get_static_lib (w : World) (pr path : List Char) : Option (List Char) :=
  match w.realpath path with
  | none => none
  | some rp =>
    match strip_prefix rp pr with
    | none => none
    | some _ =>
      let lib := get_file path
      if lib.take 3 = "lib".data then
        if lib.length ≤ 5 then none
        else if lib.drop (lib.length - 2) = ".a".data then some lib else none
      else none

/-- Content of `full_path` up to (excluding) its last '/', i.e. the effect
of `*strrchr(full_path, '/') = 0`; `none` when there is no '/'. -/
def dirname_split (s : List Char) : Option (List Char) :=
  if '/' ∈ s then some ((s.reverse.dropWhile (fun c => c ≠ '/')).tail.reverse)
  else none

/-- The destination path `feature_root/c/<rel>2rust` built by the
`snprintf(full_path, ..., "%s/c/%s2rust", feature_root, path)` call. -/
def ppFull (fr rel : List Char) : List Char := fr ++ "/c/".data ++ rel ++ "2rust".data

/-- The quoted `mkdir -p` command string built by `preprocess_cfile`. -/
def ppMkCmd (dir : List Char) : List Char := "mkdir -p \"".data ++ dir ++ "\"".data

/-- The full `clang -E` command string, base plus one quoted token per
extracted flag. -/
def ppClangCmd (args : List (List Char)) (cfile full : List Char) : List Char :=
  "clang -E \"".data ++ cfile ++ "\" -o \"".data ++ full ++ "\" -P".data
    ++ (args.map (fun a => " \"".data ++ a ++ "\"".data)).flatten

/-- `preprocess_cfile` from hook.c as an effect trace: compute the
destination path `feature_root/c/<rel>2rust`, shell out to `mkdir -p` on
its directory, then shell out to `clang -E` with the extracted flags.
The `snprintf` length guards abort the remaining steps exactly as in the
source (the cumulative per-argument checks pass iff the final command
fits, since the running length only grows). -/
def preprocess_cfile (args : List (List Char)) (cfile pr fr : List Char) : List Effect :=
  match strip_prefix cfile pr with
  | none => []
  | some rel =>
    if MAX_PATH_LEN ≤ (ppFull fr rel).length then []
    else
      match dirname_split (ppFull fr rel) with
      | none => []
      | some dir =>
        if MAX_CMD_LEN ≤ (ppMkCmd dir).length then []
        else if MAX_CMD_LEN ≤ (ppClangCmd args cfile (ppFull fr rel)).length then
          [Effect.shell (ppMkCmd dir)]
        else [Effect.shell (ppMkCmd dir), Effect.shell (ppClangCmd args cfile (ppFull fr rel))]

/-- `discover_cfile` from hook.c as an effect trace: guarded by
C2RUST_CC_SKIP; fails silently unless the first C-file slot is a
successfully resolved path; sets C2RUST_CC_SKIP and preprocesses the
collected files up to the first failed-resolution slot. -/
def discover_cfile (w : World) (argv : List (List Char)) (pr fr : List Char) : List Effect :=
  if (w.getenv "C2RUST_CC_SKIP".data).isSome then []
  else
    match (parse_args w (argv.drop 1)).2.head? with
    | some (some _) =>
      Effect.setenv "C2RUST_CC_SKIP".data "1".data ::
        ((((parse_args w (argv.drop 1)).2).takeWhile Option.isSome).map
          (fun of => preprocess_cfile (parse_args w (argv.drop 1)).1 (of.getD []) pr fr)).flatten
    | _ => []

/-- `pfx n h` is true when `n` is a leading segment of `h` (character-wise
comparison, as `strncmp`/`strstr` do). -/
def pfx : List Char → List Char → Bool
  | [], _ => true
  | _ :: _, [] => false
  | a :: n, b :: h => a == b && pfx n h

/-- `strstr(hay, needle) != NULL` from the C library: does `needle` occur
as a contiguous substring of `hay`? -/
def strstr (hay needle : List Char) : Bool :=
  if pfx needle hay then true
  else
    match hay with
    | [] => false
    | _ :: t => strstr t needle

/-- Containment of a contiguous substring, the specification-level notion
used to state deduplication claims. -/
def Contains (hay n : List Char) : Prop := ∃ u v, hay = u ++ n ++ v

/-- Names of one `target_save` call that survive the substring dedup check
`content_len == 0 || !strstr(content, libs[i])` against the content read at
entry. -/
def keepNames (content : List Char) (libs : List (List Char)) : List (List Char) :=
  libs.filter (fun l => content.isEmpty || !(strstr content l))

/-- Concatenation of names, each followed by a newline, in the order the
`dprintf(fd, "%s\n", libs[i])` loop writes them. -/
def joinNL (L : List (List Char)) : List Char :=
  (L.map (fun l => l ++ [nlChar])).flatten

/-- Name of the target-skip-guard environment variable. -/
def ldSkipVar : List Char := "C2RUST_LD_SKIP".data

/-- The `setenv(C2RUST_LD_SKIP, "1", 0)` effect performed at the top of a
non-empty `target_save` call. -/
def ldSkipSet : Effect := Effect.setenv ldSkipVar "1".data

/-- The `mkdir -p` command string built by `target_save`. -/
def tsMkCmd (fr : List Char) : List Char := "mkdir -p ".data ++ fr ++ "/c".data

/-- The `targets.list` path string built by `target_save`. -/
def tsPath (fr : List Char) : List Char := fr ++ "/c/targets.list".data

/-- `target_save` from hook.c: effect trace plus the new contents of
`targets.list` (`s` is the current contents).  Every failure path leaves
the file unchanged; a read that would fill the whole remaining buffer
(`s.length ≥ MAX_CMD_LEN - path.length - 1`) makes the subsequent
NUL-termination write out of bounds in the C source, so the embedding
returns `none` (undefined) there. -/
def target_save (w : World) (libs : List (List Char)) (s fr : List Char) :
    List Effect × Option (List Char) :=
  if libs = [] then ([], some s)
  else if MAX_CMD_LEN ≤ (tsMkCmd fr).length then
    ([ldSkipSet,
      Effect.writeStderr ("command is too long: ".data ++ (tsMkCmd fr).take (MAX_CMD_LEN - 1) ++ "...\n".data)],
     some s)
  else if MAX_CMD_LEN ≤ (tsPath fr).length then
    ([ldSkipSet, Effect.shell (tsMkCmd fr),
      Effect.writeStderr ("path is too long: ".data ++ (tsPath fr).take (MAX_CMD_LEN - 1) ++ "...\n".data)],
     some s)
  else if !w.openOk then
    ([ldSkipSet, Effect.shell (tsMkCmd fr), Effect.openFile (tsPath fr),
      Effect.writeStderr ("failed to open file: ".data ++ tsPath fr ++ "...\n".data)],
     some s)
  else if !w.flockOk then
    ([ldSkipSet, Effect.shell (tsMkCmd fr), Effect.openFile (tsPath fr), Effect.lockFile (tsPath fr),
      Effect.writeStderr ("failed to lock file: ".data ++ tsPath fr), Effect.closeFile (tsPath fr)],
     some s)
  else if !w.readOk then
    ([ldSkipSet, Effect.shell (tsMkCmd fr), Effect.openFile (tsPath fr), Effect.lockFile (tsPath fr),
      Effect.readFile (tsPath fr),
      Effect.writeStderr ("failed to read file: ".data ++ tsPath fr), Effect.closeFile (tsPath fr)],
     some s)
  else if MAX_CMD_LEN - (tsPath fr).length - 1 ≤ s.length then
    ([ldSkipSet, Effect.shell (tsMkCmd fr), Effect.openFile (tsPath fr), Effect.lockFile (tsPath fr),
      Effect.readFile (tsPath fr)],
     none)
  else if !w.lseekOk then
    ([ldSkipSet, Effect.shell (tsMkCmd fr), Effect.openFile (tsPath fr), Effect.lockFile (tsPath fr),
      Effect.readFile (tsPath fr), Effect.seekEnd (tsPath fr),
      Effect.writeStderr ("failed to access file: ".data ++ tsPath fr), Effect.closeFile (tsPath fr)],
     some s)
  else
    (ldSkipSet :: Effect.shell (tsMkCmd fr) :: Effect.openFile (tsPath fr) :: Effect.lockFile (tsPath fr)
      :: Effect.readFile (tsPath fr) :: Effect.seekEnd (tsPath fr)
      :: ((keepNames s libs).map (fun l => Effect.writeFile (tsPath fr) (l ++ [nlChar]))
          ++ [Effect.closeFile (tsPath fr)]),
     some (s ++ joinNL (keepNames s libs)))

/-- Scan of `discover_target`'s loop body over `argv[1..]`: project-owned
static libraries are collected, and a token exactly "-o" with a following
token contributes that token's basename unless it ends in `.o`, `.c2rust`
or `.i`.  The scan does not skip the token after "-o" (the C loop has no
`++i` there). -/
def discover_scan (w : World) (pr : List Char) : List (List Char) → List (List Char)
  | [] => []
  | a :: rest =>
    match get_static_lib w pr a with
    | some lib => lib :: discover_scan w pr rest
    | none =>
      if a = "-o".data ∧ rest ≠ [] then
        let out := get_file (rest.headD [])
        if ends_with out ".o".data || ends_with out ".c2rust".data || ends_with out ".i".data then
          discover_scan w pr rest
        else out :: discover_scan w pr rest
      else discover_scan w pr rest

/-- `discover_target` from hook.c: guarded by C2RUST_LD_SKIP, then saves
everything the scan collected. -/
def discover_target (w : World) (argv : List (List Char)) (pr fr : List Char) :
    List Effect × Option (List Char) :=
  if (w.getenv ldSkipVar).isSome then ([], some w.targetsContents)
  else target_save w (discover_scan w pr (argv.drop 1)) w.targetsContents fr

/-- The archiver operation/modifier letters from `is_ar_flag`. -/
def ar_flag_chars : List Char := "rcstuvdxpqmabi".data

/-- `is_ar_flag` from hook.c: '-'-prefixed, or a non-empty cluster of at
most 10 archiver letters. -/
def is_ar_flag (a : List Char) : Bool :=
  if a.head? = some '-' then true
  else if a.length = 0 || 10 < a.length then false
  else a.all (fun c => ar_flag_chars.contains c)

/-- The scanning loop of `discover_archiver_target` over `argv[1..]`:
skip flag clusters; at the first token ending in ".a", record its basename
if it matches `lib<...>.a` with length > 5, and stop either way. -/
def ar_scan : List (List Char) → Option (List Char)
  | [] => none
  | a :: rest =>
    if is_ar_flag a then ar_scan rest
    else if ends_with a ".a".data then
      let lib := get_file a
      if lib.take 3 == "lib".data && 5 < lib.length then some lib else none
    else ar_scan rest

/-- The archive name `discover_archiver_target` passes to `target_save`:
nothing under the skip guard or with fewer than 3 arguments. -/
def discovered_archive (skip : Bool) (argv : List (List Char)) : Option (List Char) :=
  if skip || argv.length < 3 then none else ar_scan (argv.drop 1)

/-- `discover_archiver_target` from hook.c as trace plus file contents. -/
def discover_archiver_target (w : World) (argv : List (List Char)) (fr : List Char) :
    List Effect × Option (List Char) :=
  match discovered_archive (w.getenv ldSkipVar).isSome argv with
  | none => ([], some w.targetsContents)
  | some lib => target_save w [lib] w.targetsContents fr

/-- `c2rust_hook` from hook.c: resolve both roots (silent no-op when either
is missing), classify the role of the process, and dispatch.  `none` means
an execution that reached undefined behaviour inside `target_save`. -/
def c2rust_hook (w : World) (prog : List Char) (argv : List (List Char)) :
    Option (List Effect) :=
  match path_from w "C2RUST_PROJECT_ROOT".data with
  | none => some []
  | some pr =>
    match path_from w "C2RUST_FEATURE_ROOT".data with
    | none => some []
    | some fr =>
      if is_compiler w prog then
        match discover_target w argv pr fr with
        | (t2, some _) => some (discover_cfile w argv pr fr ++ t2)
        | (_, none) => none
      else if is_linker w prog then
        match discover_target w argv pr fr with
        | (t2, some _) => some t2
        | (_, none) => none
      else if is_archiver prog then
        match discover_archiver_target w argv fr with
        | (t2, some _) => some t2
        | (_, none) => none
      else some []

/-- An effect is silent when it is neither a write to stdout nor a change
of the process exit status. -/
def silentEffect : Effect → Bool
  | Effect.writeStdout _ => false
  | Effect.exitProcess _ => false
  | _ => true

/-- Is this effect a write to the standard error stream? -/
def isStderrWrite : Effect → Bool
  | Effect.writeStderr _ => true
  | _ => false

/-- Split a character list at every newline; the final segment (after the
last newline, or the whole list when there is none) is the trailing
incomplete line. -/
def splitNL : List Char → List (List Char)
  | [] => [[]]
  | c :: rest =>
    if c = nlChar then [] :: splitNL rest
    else
      match splitNL rest with
      | [] => [[c]]
      | seg :: segs => (c :: seg) :: segs

/-- The complete (newline-terminated) lines of a file. -/
def fileLines (s : List Char) : List (List Char) := (splitNL s).dropLast

/-- Set-semantics of the targets list: no two equal lines. -/
def noDupLines (s : List Char) : Prop := (fileLines s).Nodup

instance (s : List Char) : Decidable (noDupLines s) :=
  List.nodupDecidable (fileLines s)

/-- One sequence of `target_save` calls against an evolving file, each call
with its own oracle and candidate list; `none` once any call reaches
undefined behaviour. -/
def run_saves (fr : List Char) : List (World × List (List Char)) → Option (List Char) → Option (List Char)
  | [], s? => s?
  | c :: cs, s? => run_saves fr cs (s?.bind (fun s => (target_save c.1 c.2 s fr).2))

/-- Oracle where every system call succeeds, every file is readable and
`realpath` is the identity. -/
def wOK : World :=
  { getenv := fun _ => none
  , realpath := fun p => some p
  , readable := fun _ => true
  , targetsContents := []
  , openOk := true, flockOk := true, readOk := true, lseekOk := true }

/-- Oracle where `realpath` always fails (no such files). -/
def wNone : World :=
  { getenv := fun _ => none
  , realpath := fun _ => none
  , readable := fun _ => false
  , targetsContents := []
  , openOk := true, flockOk := true, readOk := true, lseekOk := true }

/-- Oracle for a linker invocation whose `open` of targets.list fails:
both roots resolve, no skip guards, but `openOk` is false. -/
def wFail : World :=
  { getenv := fun n =>
      if n = "C2RUST_PROJECT_ROOT".data then some "/p".data
      else if n = "C2RUST_FEATURE_ROOT".data then some "/f".data
      else none
  , realpath := fun p => some p
  , readable := fun _ => false
  , targetsContents := []
  , openOk := false, flockOk := true, readOk := true, lseekOk := true }

/-- Oracle with an empty environment: both roots are missing. -/
def wEmpty : World :=
  { getenv := fun _ => none
  , realpath := fun _ => none
  , readable := fun _ => false
  , targetsContents := []
  , openOk := true, flockOk := true, readOk := true, lseekOk := true }

/-! ## Substring machinery -/

theorem pfx_iff : ∀ n h : List Char, pfx n h = true ↔ ∃ t, h = n ++ t
  | [], h => by simp [pfx]
  | a :: n, [] => by
      constructor
      · intro h; exact absurd h (by simp [pfx])
      · rintro ⟨t, ht⟩; exact List.noConfusion ht
  | a :: n, b :: h => by
      simp only [pfx, Bool.and_eq_true, beq_iff_eq]
      constructor
      · rintro ⟨hab, hp⟩
        obtain ⟨t, ht⟩ := (pfx_iff n h).mp hp
        exact ⟨t, by simp [hab, ht]⟩
      · rintro ⟨t, ht⟩
        injection ht with h1 h2
        exact ⟨h1.symm, (pfx_iff n h).mpr ⟨t, h2⟩⟩

theorem strstr_iff : ∀ hay n : List Char, strstr hay n = true ↔ Contains hay n
  | [], n => by
      constructor
      · intro h
        rw [strstr] at h
        split_ifs at h with hp
        · obtain ⟨t, ht⟩ := (pfx_iff n []).mp hp
          exact ⟨[], t, ht⟩
      · rintro ⟨u, v, huv⟩
        rcases List.append_eq_nil.mp huv.symm with ⟨h1, h2⟩
        rcases List.append_eq_nil.mp h1 with ⟨h3, h4⟩
        rw [strstr, if_pos ((pfx_iff n []).mpr ⟨[], by simp [h4]⟩)]
  | c :: t, n => by
      constructor
      · intro h
        rw [strstr] at h
        split_ifs at h with hp
        · obtain ⟨u, hu⟩ := (pfx_iff n (c :: t)).mp hp
          exact ⟨[], u, by simpa using hu⟩
        · obtain ⟨u, v, huv⟩ := (strstr_iff t n).mp h
          exact ⟨c :: u, v, by simp [huv]⟩
      · rintro ⟨u, v, huv⟩
        rw [strstr]
        by_cases hp : pfx n (c :: t) = true
        · rw [if_pos hp]
        · rw [if_neg hp]
          cases u with
          | nil =>
            exact absurd ((pfx_iff n (c :: t)).mpr ⟨v, by simpa using huv⟩) hp
          | cons x u' =>
            injection huv with h1 h2
            exact (strstr_iff t n).mpr ⟨u', v, h2⟩

theorem contains_of_append (s n v : List Char) : Contains (s ++ n ++ v) n :=
  ⟨s, v, rfl⟩

theorem not_contains_nil {n : List Char} (hn : n ≠ []) : ¬ Contains [] n := by
  rintro ⟨u, v, huv⟩
  rcases List.append_eq_nil.mp huv.symm with ⟨h1, _⟩
  rcases List.append_eq_nil.mp h1 with ⟨_, h3⟩
  exact hn h3

/-! ## Claim C4: strip_prefix boundary behaviour -/

/-- C4: `strip_prefix` returns a remainder only past a `/` boundary (or when
the root itself ends in `/`), returns `none` whenever the path does not lie
under the root, and the two spec examples evaluate as stated. -/
theorem C4_relative_to_root_boundary :
    (∀ p r rest : List Char, r ≠ [] → strip_prefix p r = some rest →
       p = r ++ '/' :: rest ∨ (r.getLast? = some '/' ∧ p = r ++ rest))
    ∧ (∀ p r : List Char, r ≠ [] →
       ¬(p = r ∨ (∃ rest, p = r ++ '/' :: rest) ∨ (r.getLast? = some '/' ∧ p.take r.length = r)) →
       strip_prefix p r = none)
    ∧ strip_prefix "/root/sub/a.c".data "/root".data = some "sub/a.c".data
    ∧ strip_prefix "/rootother/a.c".data "/root".data = none := by
  refine ⟨?_, ?_, by decide, by decide⟩
  · intro p r rest _ h
    unfold strip_prefix at h
    split_ifs at h with h1 h2 h3
    · right
      refine ⟨h2, ?_⟩
      have hrest := Option.some.inj h
      have hp : p = r ++ p.drop r.length := by
        conv_lhs => rw [← List.take_append_drop r.length p]
        rw [h1]
      rw [← hrest]
      exact hp
    · left
      have hrest := Option.some.inj h
      have hp : p = r ++ p.drop r.length := by
        conv_lhs => rw [← List.take_append_drop r.length p]
        rw [h1]
      cases hd : p.drop r.length with
      | nil => rw [hd] at h3; exact absurd h3 (by simp)
      | cons a tl =>
        have ha : a = '/' := by
          rw [hd] at h3; simpa using h3
        have htl : p.drop (r.length + 1) = tl := by
          have h4 : (p.drop r.length).drop 1 = tl := by rw [hd]; rfl
          rw [List.drop_drop] at h4
          simpa [Nat.add_comm] using h4
        have htr : tl = rest := htl.symm.trans hrest
        rw [hp, hd, ha, htr]
  · intro p r _ hnot
    unfold strip_prefix
    split_ifs with h1 h2 h3
    · exact absurd (Or.inr (Or.inr ⟨h2, h1⟩)) hnot
    · exfalso
      apply hnot
      right; left
      have hp : p = r ++ p.drop r.length := by
        conv_lhs => rw [← List.take_append_drop r.length p]
        rw [h1]
      cases hd : p.drop r.length with
      | nil => rw [hd] at h3; exact absurd h3 (by simp)
      | cons a tl =>
        have ha : a = '/' := by
          rw [hd] at h3; simpa using h3
        refine ⟨tl, ?_⟩
        rw [hp, hd, ha]
    · rfl
    · rfl

/-- C4 witness: the soundness direction applied at a concrete path. -/
theorem C4_relative_to_root_boundary_witness :
    "/a/b".data = "/a".data ++ '/' :: "b".data
    ∨ (("/a".data : List Char).getLast? = some '/' ∧ "/a/b".data = "/a".data ++ "b".data) :=
  C4_relative_to_root_boundary.1 "/a/b".data "/a".data "b".data (by decide) (by decide)

/-! ## Claim C2: the -include branch -/

/-- C2: evaluating `parse_args` on `["-include", "config.h"]` appends the
token `-include` twice instead of `-include` followed by the header path —
the source stores `arg` where the parallel `-I`/`-D`/`-U` branch stores
`argv[i]` (hook.c:105), so the header path is consumed but dropped. -/
theorem C2_include_appends_flag_twice :
    (parse_args wOK ["-include".data, "config.h".data]).1
      = ["-include".data, "-include".data]
    ∧ (parse_args wOK ["-include".data, "config.h".data]).1
      ≠ ["-include".data, "config.h".data] := by decide

/-! ## Claim C3: -o recognition in discover_target -/

theorem get_static_lib_dash_o (w : World) (pr : List Char) :
    get_static_lib w pr "-o".data = none := by
  cases h : w.realpath "-o".data with
  | none => simp only [get_static_lib, h]
  | some rp =>
    cases hs : strip_prefix rp pr with
    | none => simp only [get_static_lib, h, hs]
    | some x =>
      simp only [get_static_lib, h, hs]
      decide

/-- C3 counterexample: with the concatenated form `-omyprogram` nothing is
recorded, although the basename `myprogram` ends in none of `.o`,
`.c2rust`, `.i` (so the claim requires it to be recorded). -/
theorem C3_concatenated_form_not_recognized :
    discover_scan wNone "/p".data ["-omyprogram".data] = []
    ∧ ends_with (get_file "myprogram".data) ".o".data = false
    ∧ ends_with (get_file "myprogram".data) ".c2rust".data = false
    ∧ ends_with (get_file "myprogram".data) ".i".data = false := by decide

/-- C3 (amended): the declared output is recognized only as the separate
next token after `-o`; in that form its basename is recorded exactly when
it ends in none of `.o`, `.c2rust`, `.i`, and the three spec examples
(`helper.o` excluded, `libexample.so` and `myprogram` included) hold. -/
theorem C3_output_flag_separate_only :
    (∀ (w : World) (pr b : List Char) (rest : List (List Char)),
       discover_scan w pr ("-o".data :: b :: rest)
         = (if (ends_with (get_file b) ".o".data || ends_with (get_file b) ".c2rust".data
               || ends_with (get_file b) ".i".data) = true
            then [] else [get_file b]) ++ discover_scan w pr (b :: rest))
    ∧ discover_scan wNone "/p".data ["-o".data, "helper.o".data] = []
    ∧ discover_scan wNone "/p".data ["-o".data, "libexample.so".data] = ["libexample.so".data]
    ∧ discover_scan wNone "/p".data ["-o".data, "myprogram".data] = ["myprogram".data] := by
  refine ⟨?_, by decide, by decide, by decide⟩
  intro w pr b rest
  have h1 : get_static_lib w pr "-o".data = none := get_static_lib_dash_o w pr
  rw [discover_scan, h1]
  rw [if_pos ⟨rfl, by simp⟩]
  simp only [List.headD_cons]
  by_cases hc : (ends_with (get_file b) ".o".data || ends_with (get_file b) ".c2rust".data
      || ends_with (get_file b) ".i".data) = true
  · simp [hc]
  · simp [hc]

/-! ## Claim C5: archiver target discovery -/

/-- C5 counterexample: `lib.a` is not skipped as a flag cluster, ends in
`.a` and its basename begins with `lib`, yet the scan records nothing for
`["ar", "rcs", "lib.a"]` because the code additionally requires the
basename to be longer than 5 characters. -/
theorem C5_short_archive_name_not_recorded :
    is_ar_flag "lib.a".data = false
    ∧ ends_with "lib.a".data ".a".data = true
    ∧ (get_file "lib.a".data).take 3 = "lib".data
    ∧ discovered_archive false ["ar".data, "rcs".data, "lib.a".data] = none := by decide

/-- C5 (amended): the archiver scan skips exactly the flag clusters, stops
at the first non-flag token ending in `.a`, and records its basename iff it
begins with `lib` and is longer than 5 characters; the two spec example
vectors both yield `libfoo.a` (given at least 3 arguments and no skip
guard). -/
theorem C5_archiver_first_lib_archive :
    (∀ args : List (List Char),
       ar_scan args
         = (args.find? (fun a => !is_ar_flag a && ends_with a ".a".data)).bind
             (fun a => if ((get_file a).take 3 == "lib".data && 5 < (get_file a).length) = true
                       then some (get_file a) else none))
    ∧ discovered_archive false
        ["ar".data, "rcs".data, "libfoo.a".data, "a.o".data, "b.o".data] = some "libfoo.a".data
    ∧ discovered_archive false
        ["ar".data, "-rcs".data, "libfoo.a".data, "a.o".data, "b.o".data] = some "libfoo.a".data := by
  refine ⟨?_, by decide, by decide⟩
  intro args
  induction args with
  | nil => rfl
  | cons a rest ih =>
    by_cases hf : is_ar_flag a = true
    · simp [ar_scan, List.find?, hf, ih]
    · by_cases he : ends_with a ".a".data = true
      · simp [ar_scan, List.find?, hf, he]
      · simp [ar_scan, List.find?, hf, he, ih]

/-! ## Claim C10: the skip guard is set first -/

/-- C10: whenever `target_save` is called with a non-empty candidate list,
the very first effect of its trace is `setenv(C2RUST_LD_SKIP, "1", 0)` —
in particular it precedes the directory creation, open, lock and read, and
is emitted on every failure path of those operations. -/
theorem C10_skip_guard_set_first (w : World) (libs : List (List Char)) (s fr : List Char)
    (h : libs ≠ []) : ((target_save w libs s fr).1).head? = some ldSkipSet := by
  unfold target_save
  split_ifs with h0 <;> first | exact absurd h0 h | rfl

/-- C10 witness: the guard-first property at a concrete failing call
(open fails, nothing is recorded). -/
theorem C10_skip_guard_set_first_witness :
    ((target_save wFail ["libw.a".data] [] "/f".data).1).head? = some ldSkipSet :=
  C10_skip_guard_set_first wFail ["libw.a".data] [] "/f".data (by decide)

/-! ## Claim C9: directory creation shells out -/

/-- C9 counterexample: saving a target spawns a shell subprocess running
`mkdir -p /f/c` — the directory-creation step does shell out. -/
theorem C9_mkdir_shells_out :
    Effect.shell "mkdir -p /f/c".data ∈ (target_save wOK ["libfoo.a".data] [] "/f".data).1 := by
  decide

/-- C9 (amended): the directory-tree-creation step creates missing path
components by interpolating the destination into a `mkdir -p` command
string and running it through the shell via `system()` — unquoted in
`target_save`, quoted in `preprocess_cfile` — rather than using direct
mkdir calls. -/
theorem C9_dir_creation_via_shell :
    (∀ (w : World) (libs : List (List Char)) (s fr : List Char), libs ≠ [] →
       (tsMkCmd fr).length < MAX_CMD_LEN →
       Effect.shell (tsMkCmd fr) ∈ (target_save w libs s fr).1)
    ∧ (∀ (args : List (List Char)) (cfile pr fr rel dir : List Char),
       strip_prefix cfile pr = some rel →
       (ppFull fr rel).length < MAX_PATH_LEN →
       dirname_split (ppFull fr rel) = some dir →
       (ppMkCmd dir).length < MAX_CMD_LEN →
       (preprocess_cfile args cfile pr fr).head?
         = some (Effect.shell (ppMkCmd dir))) := by
  constructor
  · intro w libs s fr h hlen
    unfold target_save
    split_ifs with h0 h1 <;> first
      | exact absurd h0 h
      | exact absurd h1 (by omega)
      | simp
  · intro args cfile pr fr rel dir hstrip hfull hdir hcmd
    simp only [preprocess_cfile, hstrip]
    rw [if_neg (by omega)]
    simp only [hdir]
    rw [if_neg (by omega)]
    split_ifs <;> rfl

/-- C9 witness: both conjuncts of the amended statement at concrete
inputs. -/
theorem C9_dir_creation_via_shell_witness :
    Effect.shell (tsMkCmd "/g".data)
      ∈ (target_save wOK ["x".data] [] "/g".data).1
    ∧ (preprocess_cfile [] "/p/b.c".data "/p".data "/g".data).head?
      = some (Effect.shell (ppMkCmd "/g/c".data)) := by
  constructor
  · exact C9_dir_creation_via_shell.1 wOK ["x".data] [] "/g".data (by decide) (by decide)
  · exact C9_dir_creation_via_shell.2 [] "/p/b.c".data "/p".data "/g".data "b.c".data "/g/c".data
      (by decide) (by decide) (by decide) (by decide)

/-! ## Shape of target_save results -/

theorem target_save_result_shape (w : World) (libs : List (List Char)) (s fr s' : List Char)
    (h : (target_save w libs s fr).2 = some s') :
    s' = s ∨ s' = s ++ joinNL (keepNames s libs) := by
  unfold target_save at h
  split_ifs at h <;>
    first
      | exact Or.inl (Option.some.inj h).symm
      | exact Or.inr (Option.some.inj h).symm

theorem keepNames_single_pos (s n : List Char) (hc : (s.isEmpty || !(strstr s n)) = true) :
    keepNames s [n] = [n] := by
  simp only [keepNames, List.filter, hc]

theorem keepNames_single_neg (s n : List Char) (hc : (s.isEmpty || !(strstr s n)) ≠ true) :
    keepNames s [n] = [] := by
  simp only [keepNames, List.filter, Bool.not_eq_true] at *
  simp [hc]

theorem target_save_single (w : World) (fr s n s' : List Char) (hn : n ≠ [])
    (h : (target_save w [n] s fr).2 = some s') :
    s' = s ∨ (¬ Contains s n ∧ s' = s ++ n ++ [nlChar]) := by
  rcases target_save_result_shape w [n] s fr s' h with h' | h'
  · exact Or.inl h'
  · by_cases hc : (s.isEmpty || !(strstr s n)) = true
    · right
      constructor
      · intro hcont
        have hss := (strstr_iff s n).mpr hcont
        have hif : s.isEmpty = false := by
          cases hs0 : s with
          | nil => exact absurd (hs0 ▸ hcont) (not_contains_nil hn)
          | cons a t => rfl
        rw [hif, hss] at hc
        exact absurd hc (by simp)
      · rw [h', keepNames_single_pos s n hc]
        simp [joinNL]
    · left
      rw [h', keepNames_single_neg s n hc]
      simp [joinNL]

theorem target_save_no_append (w : World) (fr s n s' : List Char)
    (hne : s ≠ []) (hcont : Contains s n)
    (h : (target_save w [n] s fr).2 = some s') : s' = s := by
  rcases target_save_result_shape w [n] s fr s' h with h' | h'
  · exact h'
  · rw [h']
    have h1 : strstr s n = true := (strstr_iff s n).mpr hcont
    have h2 : s.isEmpty = false := by
      cases s with
      | nil => exact absurd rfl hne
      | cons a t => rfl
    rw [keepNames_single_neg s n (by simp [h1, h2])]
    simp [joinNL]

/-! ## Claim C6: re-saving a name is idempotent -/

/-- C6: on every defined execution pair, saving the same non-empty name
twice appends it at most once in total — each call appends at most the
name itself, a second append forces the first call to have been a no-op
(which cannot happen after an append), an append happens only when the
name is not yet contained in the contents, and re-saving an
already-present name leaves the file unchanged. -/
theorem C6_resave_appends_at_most_once (w1 w2 : World) (fr s n s1 s2 : List Char)
    (hn : n ≠ [])
    (h1 : (target_save w1 [n] s fr).2 = some s1)
    (h2 : (target_save w2 [n] s1 fr).2 = some s2) :
    (s1 = s ∨ s1 = s ++ n ++ [nlChar])
    ∧ (s2 = s1 ∨ s2 = s1 ++ n ++ [nlChar])
    ∧ (s1 ≠ s → s2 = s1)
    ∧ (s1 ≠ s → ¬ Contains s n)
    ∧ (s2 ≠ s1 → ¬ Contains s1 n) := by
  have e1 := target_save_single w1 fr s n s1 hn h1
  have e2 := target_save_single w2 fr s1 n s2 hn h2
  refine ⟨?_, ?_, ?_, ?_, ?_⟩
  · rcases e1 with h | ⟨_, h⟩
    · exact Or.inl h
    · exact Or.inr h
  · rcases e2 with h | ⟨_, h⟩
    · exact Or.inl h
    · exact Or.inr h
  · intro hne
    rcases e1 with h | ⟨hnc, hap⟩
    · exact absurd h hne
    · have hcont : Contains s1 n := by
        rw [hap]; exact contains_of_append s n [nlChar]
      have hne1 : s1 ≠ [] := by
        rw [hap]
        intro hh
        rcases List.append_eq_nil.mp hh with ⟨_, h2'⟩
        exact List.noConfusion h2'
      exact target_save_no_append w2 fr s1 n s2 hne1 hcont h2
  · intro hne
    rcases e1 with h | ⟨hnc, _⟩
    · exact absurd h hne
    · exact hnc
  · intro hne
    rcases e2 with h | ⟨hnc, _⟩
    · exact absurd h hne
    · exact hnc

/-- C6 witness: the theorem applied to an initially empty targets list and
the name `libx.a`, saved twice with every system call succeeding. -/
theorem C6_resave_appends_at_most_once_witness :
    (("libx.a\n".data : List Char) = [] ∨ ("libx.a\n".data : List Char) = [] ++ "libx.a".data ++ [nlChar])
    ∧ (("libx.a\n".data : List Char) = "libx.a\n".data
       ∨ ("libx.a\n".data : List Char) = "libx.a\n".data ++ "libx.a".data ++ [nlChar])
    ∧ (("libx.a\n".data : List Char) ≠ [] → ("libx.a\n".data : List Char) = "libx.a\n".data)
    ∧ (("libx.a\n".data : List Char) ≠ [] → ¬ Contains [] "libx.a".data)
    ∧ (("libx.a\n".data : List Char) ≠ "libx.a\n".data → ¬ Contains "libx.a\n".data "libx.a".data) :=
  C6_resave_appends_at_most_once wOK wOK "/f".data [] "libx.a".data "libx.a\n".data "libx.a\n".data
    (by decide) (by decide) (by decide)

/-! ## Lines, joins and the C7 invariant -/

theorem joinNL_cons (n : List Char) (L : List (List Char)) :
    joinNL (n :: L) = n ++ nlChar :: joinNL L := by
  simp [joinNL]

theorem joinNL_append (L K : List (List Char)) :
    joinNL (L ++ K) = joinNL L ++ joinNL K := by
  simp [joinNL]

theorem joinNL_eq_nil (L : List (List Char)) (h : joinNL L = []) : L = [] := by
  cases L with
  | nil => rfl
  | cons n L' =>
    rw [joinNL_cons] at h
    rcases List.append_eq_nil.mp h with ⟨_, h2⟩
    exact List.noConfusion h2

theorem contains_joinNL_of_mem {L : List (List Char)} {n : List Char} (h : n ∈ L) :
    Contains (joinNL L) n := by
  induction L with
  | nil => exact absurd h (List.not_mem_nil n)
  | cons m L' ih =>
    rw [joinNL_cons]
    rcases List.mem_cons.mp h with he | hm
    · subst he
      exact ⟨[], nlChar :: joinNL L', rfl⟩
    · obtain ⟨u, v, huv⟩ := ih hm
      exact ⟨m ++ nlChar :: u, v, by rw [huv]; simp⟩

theorem splitNL_ne_nil : ∀ s : List Char, splitNL s ≠ []
  | [] => by simp [splitNL]
  | c :: rest => by
      rw [splitNL]
      split_ifs
      · simp
      · cases h : splitNL rest with
        | nil => simp [h]
        | cons seg segs => simp [h]

theorem splitNL_chunk : ∀ (n t : List Char), nlChar ∉ n →
    splitNL (n ++ nlChar :: t) = n :: splitNL t
  | [], t, _ => by simp [splitNL]
  | c :: n', t, h => by
      have hc : c ≠ nlChar := fun hh => h (hh ▸ List.mem_cons_self c n')
      have hn' : nlChar ∉ n' := fun hm => h (List.mem_cons_of_mem c hm)
      rw [List.cons_append, splitNL, if_neg hc, splitNL_chunk n' t hn']

theorem fileLines_joinNL : ∀ L : List (List Char), (∀ x ∈ L, nlChar ∉ x) →
    fileLines (joinNL L) = L
  | [], _ => by simp [fileLines, joinNL, splitNL]
  | n :: L', h => by
      have hn : nlChar ∉ n := h n (List.mem_cons_self n L')
      have hL : ∀ x ∈ L', nlChar ∉ x := fun x hx => h x (List.mem_cons_of_mem n hx)
      unfold fileLines
      rw [joinNL_cons, splitNL_chunk n (joinNL L') hn]
      cases hsp : splitNL (joinNL L') with
      | nil => exact absurd hsp (splitNL_ne_nil _)
      | cons seg segs =>
        have hrec := fileLines_joinNL L' hL
        unfold fileLines at hrec
        rw [hsp] at hrec
        show n :: (seg :: segs).dropLast = n :: L'
        rw [hrec]

theorem run_saves_none (fr : List Char) :
    ∀ cs : List (World × List (List Char)), run_saves fr cs none = none
  | [] => rfl
  | c :: cs => by
      rw [run_saves]
      simp only [Option.none_bind]
      exact run_saves_none fr cs

theorem run_saves_invariant (fr : List Char) (calls : List (World × List (List Char))) :
    ∀ (L : List (List Char)) (s : List Char),
    (∀ c ∈ calls, c.2.Nodup ∧ ∀ x ∈ c.2, nlChar ∉ x) →
    L.Nodup → (∀ x ∈ L, nlChar ∉ x) →
    run_saves fr calls (some (joinNL L)) = some s →
    ∃ L', s = joinNL L' ∧ L'.Nodup ∧ (∀ x ∈ L', nlChar ∉ x) := by
  induction calls with
  | nil =>
    intro L s _ hnd hnl h
    exact ⟨L, (Option.some.inj h).symm, hnd, hnl⟩
  | cons c cs ih =>
    intro L s hc hnd hnl h
    rw [run_saves] at h
    simp only [Option.some_bind] at h
    cases hts : (target_save c.1 c.2 (joinNL L) fr).2 with
    | none =>
      rw [hts, run_saves_none] at h
      exact Option.noConfusion h
    | some s1 =>
      rw [hts] at h
      rcases target_save_result_shape c.1 c.2 (joinNL L) fr s1 hts with h1 | h1
      · exact ih L s (fun d hd => hc d (List.mem_cons_of_mem c hd)) hnd hnl (h1 ▸ h)
      · have hcall := hc c (List.mem_cons_self c cs)
        have hknd : (keepNames (joinNL L) c.2).Nodup := by
          simp only [keepNames]
          exact hcall.1.filter _
        have hdisj : L.Disjoint (keepNames (joinNL L) c.2) := by
          intro x hxL hxK
          simp only [keepNames] at hxK
          have hpred := List.of_mem_filter hxK
          have hcont : Contains (joinNL L) x := contains_joinNL_of_mem hxL
          have hss := (strstr_iff _ x).mpr hcont
          have hne : (joinNL L).isEmpty = false := by
            cases hj : joinNL L with
            | nil =>
              rw [joinNL_eq_nil L hj] at hxL
              exact absurd hxL (List.not_mem_nil x)
            | cons a t => rfl
          rw [hne, hss] at hpred
          exact absurd hpred (by simp)
        have hnd' : (L ++ keepNames (joinNL L) c.2).Nodup := by
          rw [List.nodup_append]
          exact ⟨hnd, hknd, hdisj⟩
        have hnl' : ∀ x ∈ L ++ keepNames (joinNL L) c.2, nlChar ∉ x := by
          intro x hx
          rcases List.mem_append.mp hx with hx | hx
          · exact hnl x hx
          · simp only [keepNames] at hx
            exact hcall.2 x (List.mem_of_mem_filter hx)
        refine ih (L ++ keepNames (joinNL L) c.2) s
          (fun d hd => hc d (List.mem_cons_of_mem c hd)) hnd' hnl' ?_
        rw [joinNL_append, ← h1]
        exact h

/-! ## Claim C7: targets.list keeps set semantics -/

/-- C7 counterexample: one `target_save` call whose candidate list repeats
`libfoo.a` against an initially empty file writes the name twice — the
dedup check only consults the content read at entry (and short-circuits
entirely on an empty file), so the resulting file has duplicate lines. -/
theorem C7_duplicate_lines_from_repeated_name :
    run_saves "/f".data [(wOK, ["libfoo.a".data, "libfoo.a".data])] (some [])
      = some "libfoo.a\nlibfoo.a\n".data
    ∧ ¬ noDupLines "libfoo.a\nlibfoo.a\n".data := by decide

/-- C7 (amended): after any defined sequence of `target_save` calls against
an initially empty targets list, the file has no duplicate lines provided
each individual call's candidate list repeats no name and the names contain
no newline character. -/
theorem C7_no_duplicate_lines (fr s : List Char) (calls : List (World × List (List Char)))
    (hc : ∀ c ∈ calls, c.2.Nodup ∧ ∀ x ∈ c.2, nlChar ∉ x)
    (h : run_saves fr calls (some []) = some s) :
    noDupLines s := by
  obtain ⟨L', h1, h2, h3⟩ := run_saves_invariant fr calls [] s hc (by simp) (by simp) h
  unfold noDupLines
  rw [h1, fileLines_joinNL L' h3]
  exact h2

/-- C7 witness: two successful calls — the second repeats `libfoo.a` and
adds `libbar.a` — leave a duplicate-free file. -/
theorem C7_no_duplicate_lines_witness :
    noDupLines "libfoo.a\nlibbar.a\n".data :=
  C7_no_duplicate_lines "/f".data "libfoo.a\nlibbar.a\n".data
    [(wOK, ["libfoo.a".data]), (wOK, ["libbar.a".data, "libfoo.a".data])]
    (by decide) (by decide)

/-! ## Claim C1: the hook never writes stdout and never exits -/

theorem all_flatten_silent (LL : List (List Effect))
    (h : ∀ l ∈ LL, l.all silentEffect = true) : LL.flatten.all silentEffect = true := by
  induction LL with
  | nil => rfl
  | cons l ls ih =>
    rw [List.flatten_cons, List.all_append]
    rw [h l (List.mem_cons_self l ls), ih (fun m hm => h m (List.mem_cons_of_mem l hm))]
    rfl

theorem preprocess_cfile_silent (args : List (List Char)) (cfile pr fr : List Char) :
    (preprocess_cfile args cfile pr fr).all silentEffect = true := by
  cases h : strip_prefix cfile pr with
  | none => simp [preprocess_cfile, h]
  | some rel =>
    cases h2 : dirname_split (ppFull fr rel) with
    | none =>
      simp only [preprocess_cfile, h, h2]
      split_ifs <;> rfl
    | some dir =>
      simp only [preprocess_cfile, h, h2]
      split_ifs <;> rfl

theorem target_save_silent (w : World) (libs : List (List Char)) (s fr : List Char) :
    ((target_save w libs s fr).1).all silentEffect = true := by
  unfold target_save
  split_ifs <;>
    simp [silentEffect, ldSkipSet, List.all_append, List.all_map, Function.comp]

theorem discover_cfile_silent (w : World) (argv : List (List Char)) (pr fr : List Char) :
    (discover_cfile w argv pr fr).all silentEffect = true := by
  unfold discover_cfile
  split_ifs with h1
  · rfl
  · cases hh : (parse_args w (argv.drop 1)).2.head? with
    | none => simp only [hh]; rfl
    | some o =>
      cases o with
      | none => simp only [hh]; rfl
      | some x =>
        simp only [hh, List.all_cons]
        rw [Bool.and_eq_true]
        refine ⟨rfl, ?_⟩
        apply all_flatten_silent
        intro l hl
        obtain ⟨of, _, rfl⟩ := List.mem_map.mp hl
        exact preprocess_cfile_silent _ _ pr fr

theorem discover_target_silent (w : World) (argv : List (List Char)) (pr fr : List Char) :
    ((discover_target w argv pr fr).1).all silentEffect = true := by
  unfold discover_target
  split_ifs
  · rfl
  · exact target_save_silent w _ _ fr

theorem discover_archiver_target_silent (w : World) (argv : List (List Char)) (fr : List Char) :
    ((discover_archiver_target w argv fr).1).all silentEffect = true := by
  cases hd : discovered_archive (w.getenv ldSkipVar).isSome argv with
  | none => simp only [discover_archiver_target, hd]; rfl
  | some lib =>
    simp only [discover_archiver_target, hd]
    exact target_save_silent w [lib] w.targetsContents fr

/-- C1 counterexample: a linker invocation whose `open` of `targets.list`
fails writes a diagnostic line to the standard error stream of the wrapped
tool's process — the hook does change stderr on this failure path. -/
theorem C1_stderr_written_on_open_failure :
    ((c2rust_hook wFail "ld".data ["ld".data, "-o".data, "myprog".data]).getD []).any
      isStderrWrite = true := by decide

/-- C1 (amended): on every defined execution, for every role and oracle,
the hook performs no write to stdout and never changes the process exit
status (its trace contains no `writeStdout` and no `exitProcess` effect);
stderr, however, does receive diagnostics on `target_save` failure paths. -/
theorem C1_hook_writes_no_stdout_never_exits (w : World) (prog : List Char)
    (argv : List (List Char)) (tr : List Effect)
    (h : c2rust_hook w prog argv = some tr) :
    tr.all silentEffect = true := by
  unfold c2rust_hook at h
  cases hpr : path_from w "C2RUST_PROJECT_ROOT".data with
  | none =>
    simp only [hpr] at h
    rw [← Option.some.inj h]
    rfl
  | some pr =>
    simp only [hpr] at h
    cases hfr : path_from w "C2RUST_FEATURE_ROOT".data with
    | none =>
      simp only [hfr] at h
      rw [← Option.some.inj h]
      rfl
    | some fr =>
      simp only [hfr] at h
      split_ifs at h
      · -- compiler role
        cases hdt : discover_target w argv pr fr with
        | mk t2 o2 =>
          simp only [hdt] at h
          cases o2 with
          | none => exact Option.noConfusion h
          | some x =>
            rw [← Option.some.inj h, List.all_append, Bool.and_eq_true]
            constructor
            · exact discover_cfile_silent w argv pr fr
            · have hs := discover_target_silent w argv pr fr
              rw [hdt] at hs
              exact hs
      · -- linker role
        cases hdt : discover_target w argv pr fr with
        | mk t2 o2 =>
          simp only [hdt] at h
          cases o2 with
          | none => exact Option.noConfusion h
          | some x =>
            rw [← Option.some.inj h]
            have hs := discover_target_silent w argv pr fr
            rw [hdt] at hs
            exact hs
      · -- archiver role
        cases hdt : discover_archiver_target w argv fr with
        | mk t2 o2 =>
          simp only [hdt] at h
          cases o2 with
          | none => exact Option.noConfusion h
          | some x =>
            rw [← Option.some.inj h]
            have hs := discover_archiver_target_silent w argv fr
            rw [hdt] at hs
            exact hs
      · -- unclassified role
        rw [← Option.some.inj h]
        rfl

/-- C1 witness: the amended theorem applied to an invocation with no
configured roots, whose trace is empty. -/
theorem C1_hook_writes_no_stdout_never_exits_witness :
    ([] : List Effect).all silentEffect = true :=
  C1_hook_writes_no_stdout_never_exits wEmpty "gcc".data ["gcc".data, "a.c".data] []
    (by decide)

/-! ## Claim C8: collected source files -/

theorem consumes_value_false (a : List Char)
    (h1 : a ≠ "-I".data) (h2 : a ≠ "-D".data) (h3 : a ≠ "-U".data)
    (h4 : a ≠ "-include".data) :
    consumes_value a = false := by
  unfold consumes_value
  rw [beq_false_of_ne h1, beq_false_of_ne h2, beq_false_of_ne h3, beq_false_of_ne h4]
  rfl

theorem parse_args_sources_aux (w : World) :
    ∀ k : Nat, ∀ args : List (List Char), args.length ≤ k →
    (parse_args w args).2 = spec_sources w args := by
  intro k
  induction k with
  | zero =>
    intro args hlen
    have h0 : args = [] := List.eq_nil_of_length_eq_zero (Nat.le_zero.mp hlen)
    subst h0
    rfl
  | succ k ih =>
    intro args hlen
    cases args with
    | nil => rfl
    | cons arg rest =>
      have hrest : rest.length ≤ k := by
        simp only [List.length_cons] at hlen
        omega
      by_cases hd : arg.head? = some '-'
      · cases arg with
        | nil => exact absurd hd (by simp)
        | cons c t' =>
          have hc : c = '-' := by simpa using hd
          subst hc
          by_cases hIDU : t'.head? = some 'I' ∨ t'.head? = some 'D' ∨ t'.head? = some 'U'
          · cases t' with
            | nil => rcases hIDU with h | h | h <;> exact absurd h (by simp)
            | cons c1 t1 =>
              cases t1 with
              | nil =>
                rcases hIDU with h | h | h
                · have hc1 : c1 = 'I' := by simpa using h
                  subst hc1
                  cases rest with
                  | nil => rfl
                  | cons v rest' =>
                    exact ih rest' (by simp only [List.length_cons] at hrest; omega)
                · have hc1 : c1 = 'D' := by simpa using h
                  subst hc1
                  cases rest with
                  | nil => rfl
                  | cons v rest' =>
                    exact ih rest' (by simp only [List.length_cons] at hrest; omega)
                · have hc1 : c1 = 'U' := by simpa using h
                  subst hc1
                  cases rest with
                  | nil => rfl
                  | cons v rest' =>
                    exact ih rest' (by simp only [List.length_cons] at hrest; omega)
              | cons c2 t2 =>
                have hne1 : ('-' :: c1 :: c2 :: t2) ≠ "-I".data := by
                  intro heq
                  injection heq with h1 h2
                  injection h2 with h3 h4
                  exact List.noConfusion h4
                have hne2 : ('-' :: c1 :: c2 :: t2) ≠ "-D".data := by
                  intro heq
                  injection heq with h1 h2
                  injection h2 with h3 h4
                  exact List.noConfusion h4
                have hne3 : ('-' :: c1 :: c2 :: t2) ≠ "-U".data := by
                  intro heq
                  injection heq with h1 h2
                  injection h2 with h3 h4
                  exact List.noConfusion h4
                have hne4 : ('-' :: c1 :: c2 :: t2) ≠ "-include".data := by
                  intro heq
                  injection heq with h1 h2
                  injection h2 with h3 h4
                  rcases hIDU with h | h | h
                  · have hcc : c1 = 'I' := by simpa using h
                    rw [hcc] at h3
                    exact absurd h3 (by decide)
                  · have hcc : c1 = 'D' := by simpa using h
                    rw [hcc] at h3
                    exact absurd h3 (by decide)
                  · have hcc : c1 = 'U' := by simpa using h
                    rw [hcc] at h3
                    exact absurd h3 (by decide)
                have hcv : consumes_value ('-' :: c1 :: c2 :: t2) = false :=
                  consumes_value_false _ hne1 hne2 hne3 hne4
                have hst : source_token w ('-' :: c1 :: c2 :: t2) = false := by
                  simp [source_token]
                have hIDU' : c1 = 'I' ∨ c1 = 'D' ∨ c1 = 'U' := by
                  simpa using hIDU
                have hL : (parse_args w (('-' :: c1 :: c2 :: t2) :: rest)).2
                    = (parse_args w rest).2 := by
                  rw [parse_args.eq_def]
                  simp [hIDU']
                have hR : spec_sources w (('-' :: c1 :: c2 :: t2) :: rest)
                    = spec_sources w rest := by
                  rw [spec_sources.eq_def]
                  simp [hcv, hst]
                rw [hL, hR]
                exact ih rest hrest
          · by_cases hinc : t' = "include".data
            · subst hinc
              cases rest with
              | nil => rfl
              | cons v rest' =>
                exact ih rest' (by simp only [List.length_cons] at hrest; omega)
            · have hne1 : ('-' :: t') ≠ "-I".data := by
                intro heq
                injection heq with h1 h2
                exact hIDU (Or.inl (by rw [h2]; rfl))
              have hne2 : ('-' :: t') ≠ "-D".data := by
                intro heq
                injection heq with h1 h2
                exact hIDU (Or.inr (Or.inl (by rw [h2]; rfl)))
              have hne3 : ('-' :: t') ≠ "-U".data := by
                intro heq
                injection heq with h1 h2
                exact hIDU (Or.inr (Or.inr (by rw [h2]; rfl)))
              have hne4 : ('-' :: t') ≠ "-include".data := by
                intro heq
                injection heq with h1 h2
                exact hinc h2
              have hcv : consumes_value ('-' :: t') = false :=
                consumes_value_false _ hne1 hne2 hne3 hne4
              have hst : source_token w ('-' :: t') = false := by
                simp [source_token]
              have hL : (parse_args w (('-' :: t') :: rest)).2 = (parse_args w rest).2 := by
                by_cases hstd : t'.take 4 = "std=".data <;>
                  (rw [parse_args.eq_def]; simp [hIDU, hinc, hstd])
              have hR : spec_sources w (('-' :: t') :: rest) = spec_sources w rest := by
                rw [spec_sources.eq_def]
                simp [hcv, hst]
              rw [hL, hR]
              exact ih rest hrest
      · have hcv : consumes_value arg = false := by
          refine consumes_value_false arg ?_ ?_ ?_ ?_ <;>
            (intro heq; apply hd; rw [heq]; rfl)
        by_cases hcf : (is_cfile arg && w.readable arg) = true
        · have hst : source_token w arg = true := by
            have hb : (arg.head? == some '-') = false := beq_false_of_ne hd
            simp [source_token, hb, hcf]
          have hL : (parse_args w (arg :: rest)).2
              = w.realpath arg :: (parse_args w rest).2 := by
            rw [parse_args.eq_def]
            simp [hd, hcf]
          have hR : spec_sources w (arg :: rest)
              = w.realpath arg :: spec_sources w rest := by
            rw [spec_sources.eq_def]
            simp [hcv, hst]
          rw [hL, hR, ih rest hrest]
        · have hcf' : (is_cfile arg && w.readable arg) = false := by
            cases hval : (is_cfile arg && w.readable arg) with
            | true => exact absurd hval hcf
            | false => rfl
          have hst : source_token w arg = false := by
            have hb : (arg.head? == some '-') = false := beq_false_of_ne hd
            simp [source_token, hb, hcf']
          have hL : (parse_args w (arg :: rest)).2 = (parse_args w rest).2 := by
            rw [parse_args.eq_def]
            simp [hd, hcf']
          have hR : spec_sources w (arg :: rest) = spec_sources w rest := by
            rw [spec_sources.eq_def]
            simp [hcv, hst]
          rw [hL, hR]
          exact ih rest hrest

/-- C8 counterexample: with every file readable and `realpath` the
identity, the vector `["-I", "a.c"]` yields no collected sources although
the token `a.c` does not start with `-`, ends in `.c` and is readable —
it was consumed as the separated value of the preceding `-I`. -/
theorem C8_consumed_value_not_collected :
    (parse_args wOK ["-I".data, "a.c".data]).2 = []
    ∧ ("a.c".data : List Char).head? ≠ some '-'
    ∧ is_cfile "a.c".data = true
    ∧ wOK.readable "a.c".data = true := by decide

/-- C8 (amended): the source files `parse_args` collects are exactly the
tokens that survive the scan (i.e. are not consumed as the separated value
of a preceding `-I`/`-D`/`-U`/`-include`), do not start with `-`, end in
`.c` with at least one character before the suffix, and pass the
readability check — each mapped through `realpath`, in order
(`spec_sources` is the spec-side description of that scan). -/
theorem C8_sources_exactly_surviving_readable_cfiles (w : World) (args : List (List Char)) :
    (parse_args w args).2 = spec_sources w args :=
  parse_args_sources_aux w args.length args (Nat.le_refl _)

end Hook
